import Mathlib

/-!
Shallow embedding of the core of the `frodo` repository (package `jobs`:
job table, scheduler tick, table-update consumer; package `cache`:
`EmptyQueryCache`), together with proofs about the claims made by the
specification.

Go maps are modelled as association lists (`alookup` / `ainsert` /
`aerase`); Go channels that only matter through the sequence of values
pushed on them are modelled by that sequence plus a `closed` flag;
operations that would panic in Go (method call on a `nil` interface)
return `Option`.
-/

set_option autoImplicit false

namespace Frodo

/-- Lookup in an association list; models reading `m[k]` from a Go map
(`none` plays the role of the zero value for a missing key). -/
def alookup {α β : Type} [DecidableEq α] : List (α × β) → α → Option β
  | [], _ => none
  | (k, v) :: rest, key => if k = key then some v else alookup rest key

/-- Insert-or-replace in an association list; models `m[k] = v` on a Go map. -/
def ainsert {α β : Type} [DecidableEq α] : List (α × β) → α → β → List (α × β)
  | [], key, val => [(key, val)]
  | (k, v) :: rest, key, val =>
    if k = key then (key, val) :: rest else (k, v) :: ainsert rest key val

/-- Remove a key from an association list; models `delete(m, k)` on a Go map. -/
def aerase {α β : Type} [DecidableEq α] : List (α × β) → α → List (α × β)
  | [], _ => []
  | (k, v) :: rest, key =>
    if k = key then aerase rest key else (k, v) :: aerase rest key

namespace Cache

/-- Key of the empty-query cache.  The source's `mkKey` encodes the list
`aligned ++ [corpusID]` as a single colon-joined string
(`strings.Join(append(aligned, corpusID), ":")`); that encoding is injective
for colon-free corpus IDs, so we model the key by the list of corpus IDs it
is built from.  "A corpus ID appears in the key" is then list membership. -/
abbrev CacheKey := List String

/-- From `mkKey` (part_000): the cache key built from a primary corpus and
its aligned corpora, modulo the colon-join encoding (see `CacheKey`). -/
def mkKey (corpusID : String) (aligned : List String) : CacheKey :=
  aligned ++ [corpusID]

/-- The part of `query.Payload` the cache consults: the attribute filter map
(`Attrs`, modelled as an association list) and the aligned corpora. -/
structure Payload where
  attrs : List (String × String)
  aligned : List String
deriving DecidableEq

/-- From `EmptyQueryCache` (part_000): cached results (`data`) plus the
corpus-to-keys reverse index (`corpKeyDeps`).  The stored value type is an
opaque parameter `V` (the source stores `*response.QueryAns`). -/
structure EmptyQueryCache (V : Type) where
  data : List (CacheKey × V)
  corpKeyDeps : List (String × List CacheKey)
deriving DecidableEq

/-- The reverse-index bucket of a corpus; a missing entry reads as the empty
bucket (Go: indexing a map yields the `nil` slice). -/
def getBucket {V : Type} (qc : EmptyQueryCache V) (corpusID : String) : List CacheKey :=
  ((alookup qc.corpKeyDeps corpusID).getD [])

/-- From `EmptyQueryCache.Get` (part_000): miss (`nil`, here `none`)
whenever the query has a non-empty attribute map, otherwise the stored
value for the composite key, if any. -/
def EmptyQueryCache.Get {V : Type} (qc : EmptyQueryCache V) (corpusID : String)
    (qry : Payload) : Option V :=
  if qry.attrs.length > 0 then none
  else alookup qc.data (mkKey corpusID qry.aligned)

/-- From `EmptyQueryCache.setKeyCorpusDependency` (part_000): link `key`
into the bucket of `corpusID`, creating the bucket if missing and skipping
the append when the key is already linked. -/
def setKeyCorpusDependency {V : Type} (qc : EmptyQueryCache V) (corpusID : String)
    (key : CacheKey) : EmptyQueryCache V :=
  match alookup qc.corpKeyDeps corpusID with
  | none => { qc with corpKeyDeps := ainsert qc.corpKeyDeps corpusID [key] }
  | some keys =>
    if key ∈ keys then qc
    else { qc with corpKeyDeps := ainsert qc.corpKeyDeps corpusID (keys ++ [key]) }

/-- From `EmptyQueryCache.Set` (part_000): ignore queries with attribute
filters; otherwise store the value under the composite key and link the key
into the buckets of the primary corpus and of every aligned corpus. -/
def EmptyQueryCache.Set {V : Type} (qc : EmptyQueryCache V) (corpusID : String)
    (qry : Payload) (value : V) : EmptyQueryCache V :=
  if qry.attrs.length > 0 then qc
  else
    let cKey := mkKey corpusID qry.aligned
    let qc1 : EmptyQueryCache V := { qc with data := ainsert qc.data cKey value }
    let qc2 := setKeyCorpusDependency qc1 corpusID cKey
    qry.aligned.foldl (fun acc alignedCorpusID => setKeyCorpusDependency acc alignedCorpusID cKey) qc2

/-- From `EmptyQueryCache.pruneKeyInDeps` (part_000): remove every
occurrence of `key` from every corpus's bucket.  (The source also returns
the number of removed occurrences, used only for logging.) -/
def pruneKeyInDeps {V : Type} (qc : EmptyQueryCache V) (key : CacheKey) : EmptyQueryCache V :=
  { qc with corpKeyDeps := qc.corpKeyDeps.map (fun kv => (kv.1, kv.2.filter (fun k => k ≠ key))) }

/-- One iteration of the loop body in `EmptyQueryCache.Del` (part_000):
delete the stored value for `key`, then prune `key` from every bucket. -/
def delStep {V : Type} (qc : EmptyQueryCache V) (key : CacheKey) : EmptyQueryCache V :=
  pruneKeyInDeps { qc with data := aerase qc.data key } key

/-- From `EmptyQueryCache.Del` (part_000): for every key referenced by
`corpusID` in the reverse index, delete the stored value and prune the key
from every bucket; finally remove `corpusID`'s own bucket. -/
def EmptyQueryCache.Del {V : Type} (qc : EmptyQueryCache V) (corpusID : String) :
    EmptyQueryCache V :=
  let cInv := getBucket qc corpusID
  let qc1 := cInv.foldl delStep qc
  { qc1 with corpKeyDeps := aerase qc1.corpKeyDeps corpusID }

/-- The reverse-index invariant: every corpus ID appearing in a stored key
has that key in its reverse-index bucket. -/
def RevIndexInv {V : Type} (qc : EmptyQueryCache V) : Prop :=
  ∀ kv ∈ qc.data, ∀ c ∈ kv.1, kv.1 ∈ getBucket qc c

/-- Every reverse-index bucket holds any given key at most once. -/
def BucketsNodup {V : Type} (qc : EmptyQueryCache V) : Prop :=
  ∀ kv ∈ qc.corpKeyDeps, kv.2.Nodup

end Cache

namespace Jobs

/-- The scheduler-relevant state of a job descriptor: the capability set of
the `GeneralJobInfo` interface (identity, type tag, corpus, start time,
error, finished flag, restart counter), made concrete. -/
structure GeneralJobInfo where
  id : String
  jobType : String
  corpus : String
  startDT : Nat
  error : Option String
  finished : Bool
  numRestarts : Nat
deriving DecidableEq

/-- Interface method `WithError`: a copy with the given error attached. -/
def GeneralJobInfo.WithError (j : GeneralJobInfo) (e : Option String) : GeneralJobInfo :=
  { j with error := e }

/-- Interface method `AsFinished`: a copy marked finished. -/
def GeneralJobInfo.AsFinished (j : GeneralJobInfo) : GeneralJobInfo :=
  { j with finished := true }

/-- The job table: job ID to latest descriptor (`Actions.jobList`). -/
abbrev JobTable := List (String × GeneralJobInfo)

/-- From `Actions.numOfUnfinishedJobs` (part_001): count the table entries
not marked finished. -/
def numOfUnfinishedJobs (jobList : JobTable) : Nat :=
  (jobList.filter (fun kv => !kv.2.finished)).length

/-- From `Actions.createJobList` (part_001): the descriptors in the table,
restricted to unfinished ones when `unfinishedOnly` is set. -/
def createJobList (jobList : JobTable) (unfinishedOnly : Bool) : List GeneralJobInfo :=
  (jobList.filter (fun kv => !unfinishedOnly || !kv.2.finished)).map (fun kv => kv.2)

/-- From `Actions.goWaitExit` (part_001): on cancellation, the serialized
snapshot is the unfinished job list when a status path is configured, and
nothing is written otherwise. -/
def goWaitExitSnapshot (statusDataPath : String) (jobList : JobTable) :
    Option (List GeneralJobInfo) :=
  if statusDataPath ≠ "" then some (createJobList jobList true) else none

/-- From the `tableActionUpdateJob` branch of the table-update consumer
(part_001, lines 592-603): if the stored entry carries an error and the
incoming descriptor does not, re-attach the stored error to the incoming
descriptor; otherwise store the incoming descriptor as-is.  A missing entry
makes the Go code call `GetError` on a `nil` interface (a panic), modelled
as `none`. -/
def applyUpdateJob (jobList : JobTable) (itemID : String) (data : GeneralJobInfo) :
    Option JobTable :=
  match alookup jobList itemID with
  | none => none
  | some cur =>
    if cur.error.isSome && data.error.isNone then
      some (ainsert jobList itemID (data.WithError cur.error))
    else
      some (ainsert jobList itemID data)

/-- From the `tableActionFinishJob` branch of the table-update consumer
(part_001, line 606): mark the stored entry finished.  A missing entry
would be a `nil`-interface method call in Go, modelled as `none`. -/
def applyFinishJob (jobList : JobTable) (itemID : String) : Option JobTable :=
  match alookup jobList itemID with
  | none => none
  | some cur => some (ainsert jobList itemID cur.AsFinished)

/-- The table-update actions (`tableActionUpdateJob` etc., part_001). -/
inductive TableAction where
  | updateJob
  | finishJob
  | clearOldJobs
deriving DecidableEq

/-- A `TableUpdate` event (part_001); `data` is an interface value and may
be `nil` in Go, hence `Option`. -/
structure TableUpdate where
  action : TableAction
  itemID : String
  data : Option GeneralJobInfo
deriving DecidableEq

/-- The observable use a producer makes of a per-job update channel: the
descriptors pushed on it, and whether it was closed. -/
structure ChannelUse where
  pushed : List GeneralJobInfo
  closed : Bool
deriving DecidableEq

/-- From the pump goroutine inside `Actions.registerJob` (part_001, lines
149-163): every pushed descriptor is forwarded as an `updateJob` event; a
final `finishJob` event carrying the last descriptor seen is emitted only
when the channel is closed (the `for range` loop ends); if the channel is
never closed no `finishJob` event is ever produced. -/
def pumpEvents (jobID : String) (use : ChannelUse) : List TableUpdate :=
  (use.pushed.map (fun item => TableUpdate.mk TableAction.updateJob jobID (some item))) ++
    (if use.closed then [TableUpdate.mk TableAction.finishJob jobID use.pushed.getLast?] else [])

/-- From `Actions.dequeueJobAsFailed` (part_001, lines 127-133): the failed
finished descriptor is pushed on the job's update channel, and the channel
is not closed afterwards (the source has no `close(updateJobChan)`). -/
def dequeueJobAsFailedChannelUse (initState : GeneralJobInfo) (err : String) : ChannelUse :=
  { pushed := [(initState.WithError (some err)).AsFinished], closed := false }

/-- Modelled from the spec: the `JobQueue` type is not part of the provided
sources (only its callers are).  Per spec section 4.1 it is a FIFO of
(worker-function, initial-descriptor) pairs; the worker function is
irrelevant to admission decisions, so a queue element is modelled by its
initial descriptor. -/
abbrev JobQueue := List GeneralJobInfo

/-- Modelled from the spec: `JobQueue.PeekID` returns the head's job ID
without removal, or fails with *empty*. -/
def peekID (q : JobQueue) : Option String :=
  match q with
  | [] => none
  | j :: _ => some j.id

/-- Modelled from the spec: `JobQueue.DelayNext` moves the head element to
the tail. -/
def delayNext (q : JobQueue) : JobQueue :=
  match q with
  | [] => q
  | j :: rest => rest ++ [j]

/-- Modelled from the spec: the per-parent state of the dependency graph,
spec section 4.2. -/
inductive ParentState where
  | unfinished
  | finishedOk
  | finishedFailed
deriving DecidableEq

/-- Modelled from the spec: the dependency graph `JobsDeps` (not in the
provided sources), child job ID to its parents with their states. -/
abbrev JobsDeps := List (String × List (String × ParentState))

/-- Modelled from the spec: `JobsDeps.MustWait` is true iff any parent of
the child is still unfinished. -/
def mustWait (deps : JobsDeps) (child : String) : Bool :=
  ((alookup deps child).getD []).any (fun p => p.2 = ParentState.unfinished)

/-- Modelled from the spec: `JobsDeps.HasFailedParent` is true iff any
parent of the child is finished-failed. -/
def hasFailedParent (deps : JobsDeps) (child : String) : Bool :=
  ((alookup deps child).getD []).any (fun p => p.2 = ParentState.finishedFailed)

/-- Modelled from the spec: `JobsDeps.SetParentFinished` marks the state of
the given parent in every child's parent list. -/
def setParentFinished (deps : JobsDeps) (parent : String) (wasFailure : Bool) : JobsDeps :=
  deps.map (fun kv =>
    (kv.1, kv.2.map (fun p =>
      if p.1 = parent then
        (p.1, if wasFailure then ParentState.finishedFailed else ParentState.finishedOk)
      else p)))

/-- The scheduler state the admit tick operates on: the configured
concurrency ceiling, the job table, the queue and the dependency graph. -/
structure SchedState where
  maxNumConcurrentJobs : Nat
  jobList : JobTable
  queue : JobQueue
  jobDeps : JobsDeps
deriving DecidableEq

/-- From `Actions.registerJob` (part_001, lines 145-147), table part:
insert or overwrite the descriptor in the job table. -/
def registerJob (jobList : JobTable) (j : GeneralJobInfo) : JobTable :=
  ainsert jobList j.id j

/-- From `Actions.dequeueAndRunJob` (part_001, lines 104-121):
dequeue the head and register its initial descriptor (the spawned worker
interacts only through its update channel, not with this state). -/
def dequeueAndRunJob (s : SchedState) : SchedState :=
  match s.queue with
  | [] => s
  | j :: rest => { s with queue := rest, jobList := registerJob s.jobList j }

/-- The error message synthesized by the admit tick for a job with a
failed parent (part_001, line 569). -/
def failedParentErr (jobID : String) : String :=
  "failed to run job " ++ jobID ++ " due to failed parent(s)"

/-- From `Actions.dequeueJobAsFailed` (part_001, lines 127-133), state
part: dequeue the head unconditionally and register its descriptor with
the error attached.  (The channel interaction is
`dequeueJobAsFailedChannelUse`.) -/
def dequeueJobAsFailedState (s : SchedState) (err : String) : SchedState :=
  match s.queue with
  | [] => s
  | j :: rest => { s with queue := rest, jobList := registerJob s.jobList (j.WithError (some err)) }

/-- From the admit ticker goroutine in `NewActions` (part_001, lines
537-581): one tick.  If the unfinished count is strictly below the ceiling,
peek the head; a head with a dependency entry is delayed when it must wait,
dequeued as failed when it has a failed parent, and dequeued and run
otherwise; a head without dependencies is dequeued and run.  There is no
loop: each tick takes at most one such decision. -/
def schedulerTick (s : SchedState) : SchedState :=
  let numUnfinished := numOfUnfinishedJobs s.jobList
  if s.maxNumConcurrentJobs > numUnfinished then
    match peekID s.queue with
    | none => s
    | some nextJobID =>
      match alookup s.jobDeps nextJobID with
      | some _ =>
        if mustWait s.jobDeps nextJobID then
          { s with queue := delayNext s.queue }
        else if hasFailedParent s.jobDeps nextJobID then
          dequeueJobAsFailedState s (failedParentErr nextJobID)
        else
          dequeueAndRunJob s
      | none => dequeueAndRunJob s
  else s

/-- A scheduler step, as claim C5 delimits them: an admit tick, a finish
event applied to the table (with its dependency-graph side effect), or an
enqueue (with or without a parent), which does not touch the table. -/
inductive SchedStep : SchedState → SchedState → Prop where
  | tick (s : SchedState) : SchedStep s (schedulerTick s)
  | finish (s : SchedState) (id : String) (wasFailure : Bool) (t' : JobTable) :
      applyFinishJob s.jobList id = some t' →
      SchedStep s { s with jobList := t', jobDeps := setParentFinished s.jobDeps id wasFailure }
  | enqueue (s : SchedState) (j : GeneralJobInfo) :
      SchedStep s { s with queue := s.queue ++ [j] }
  | enqueueAfter (s : SchedState) (j : GeneralJobInfo) (parents : List (String × ParentState)) :
      SchedStep s { s with queue := s.queue ++ [j], jobDeps := ainsert s.jobDeps j.id parents }

/-- States reachable from a fresh `Actions` value (empty table, empty
queue, empty dependency graph) by scheduler steps. -/
inductive Reachable : SchedState → Prop where
  | init (maxJobs : Nat) : Reachable (SchedState.mk maxJobs [] [] [])
  | step {s s' : SchedState} : Reachable s → SchedStep s s' → Reachable s'

end Jobs

end Frodo

namespace Frodo

namespace Examples

/-- A finished descriptor without error (table entry for job `j1`). -/
def jA : Jobs.GeneralJobInfo :=
  { id := "j1", jobType := "ngrams", corpus := "cs", startDT := 0,
    error := none, finished := true, numRestarts := 0 }

/-- An unfinished descriptor without error for the same job ID `j1`. -/
def jB : Jobs.GeneralJobInfo :=
  { id := "j1", jobType := "liveattrs", corpus := "cs", startDT := 1,
    error := none, finished := false, numRestarts := 0 }

/-- An unfinished descriptor for `j1` carrying an error. -/
def jErr : Jobs.GeneralJobInfo :=
  { id := "j1", jobType := "ngrams", corpus := "cs", startDT := 0,
    error := some "boom", finished := false, numRestarts := 0 }

/-- An unfinished dependency-free descriptor for job `j2`. -/
def jC : Jobs.GeneralJobInfo :=
  { id := "j2", jobType := "ngrams", corpus := "cs", startDT := 2,
    error := none, finished := false, numRestarts := 0 }

/-- An unfinished dependency-free descriptor for job `j3`. -/
def jD : Jobs.GeneralJobInfo :=
  { id := "j3", jobType := "ngrams", corpus := "en", startDT := 3,
    error := none, finished := false, numRestarts := 0 }

/-- An unfinished descriptor for job `j4`, which has a parent. -/
def jE : Jobs.GeneralJobInfo :=
  { id := "j4", jobType := "ngrams", corpus := "de", startDT := 4,
    error := none, finished := false, numRestarts := 0 }

/-- A dependency graph in which `j4` waits on the unfinished parent `j0`. -/
def depsE : Jobs.JobsDeps :=
  [("j4", [("j0", Jobs.ParentState.unfinished)])]

end Examples

theorem alookup_ainsert {α β : Type} [DecidableEq α] (l : List (α × β)) (k : α) (v : β)
    (k' : α) : alookup (ainsert l k v) k' = if k = k' then some v else alookup l k' := by
  induction l with
  | nil => by_cases h : k = k' <;> simp [ainsert, alookup, h]
  | cons hd tl ih =>
    obtain ⟨a, b⟩ := hd
    by_cases h1 : a = k
    · subst h1
      by_cases h2 : a = k' <;> simp [ainsert, alookup, h2]
    · by_cases h2 : a = k'
      · subst h2
        simp [ainsert, alookup, h1, Ne.symm h1]
      · simp [ainsert, alookup, h1, h2, ih]

theorem alookup_ainsert_self {α β : Type} [DecidableEq α] (l : List (α × β)) (k : α)
    (v : β) : alookup (ainsert l k v) k = some v := by
  simp [alookup_ainsert]

theorem alookup_ainsert_ne {α β : Type} [DecidableEq α] (l : List (α × β)) (k : α) (v : β)
    (k' : α) (h : k ≠ k') : alookup (ainsert l k v) k' = alookup l k' := by
  simp [alookup_ainsert, h]

theorem mem_ainsert {α β : Type} [DecidableEq α] {l : List (α × β)} {k : α} {v : β}
    {kv : α × β} (h : kv ∈ ainsert l k v) : kv = (k, v) ∨ kv ∈ l := by
  induction l with
  | nil => simpa [ainsert] using h
  | cons hd tl ih =>
    by_cases h1 : hd.1 = k
    · rw [show hd = (hd.1, hd.2) from rfl, ainsert, if_pos h1] at h
      rcases List.mem_cons.mp h with h2 | h2
      · exact Or.inl h2
      · exact Or.inr (List.mem_cons_of_mem _ h2)
    · rw [show hd = (hd.1, hd.2) from rfl, ainsert, if_neg h1] at h
      rcases List.mem_cons.mp h with h2 | h2
      · exact Or.inr (by simp [h2])
      · rcases ih h2 with h3 | h3
        · exact Or.inl h3
        · exact Or.inr (List.mem_cons_of_mem _ h3)

theorem mem_of_alookup_eq_some {α β : Type} [DecidableEq α] {l : List (α × β)} {k : α}
    {v : β} (h : alookup l k = some v) : (k, v) ∈ l := by
  induction l with
  | nil => simp [alookup] at h
  | cons hd tl ih =>
    rw [show hd = (hd.1, hd.2) from rfl, alookup] at h
    by_cases h1 : hd.1 = k
    · rw [if_pos h1] at h
      subst h1
      simp [← Option.some_inj.mp h]
    · rw [if_neg h1] at h
      exact List.mem_cons_of_mem _ (ih h)

theorem ainsert_idem {α β : Type} [DecidableEq α] (l : List (α × β)) (k : α) (v : β) :
    ainsert (ainsert l k v) k v = ainsert l k v := by
  induction l with
  | nil => simp [ainsert]
  | cons hd tl ih =>
    by_cases h1 : hd.1 = k
    · rw [show hd = (hd.1, hd.2) from rfl, ainsert, if_pos h1, ainsert, if_pos rfl]
    · rw [show hd = (hd.1, hd.2) from rfl, ainsert, if_neg h1, ainsert, if_neg h1, ih]

theorem alookup_aerase_self {α β : Type} [DecidableEq α] (l : List (α × β)) (k : α) :
    alookup (aerase l k) k = none := by
  induction l with
  | nil => simp [aerase, alookup]
  | cons hd tl ih =>
    by_cases h1 : hd.1 = k
    · rw [show hd = (hd.1, hd.2) from rfl, aerase, if_pos h1]
      exact ih
    · rw [show hd = (hd.1, hd.2) from rfl, aerase, if_neg h1, alookup, if_neg h1]
      exact ih

theorem alookup_aerase_ne {α β : Type} [DecidableEq α] (l : List (α × β)) (k k' : α)
    (h : k ≠ k') : alookup (aerase l k) k' = alookup l k' := by
  induction l with
  | nil => simp [aerase]
  | cons hd tl ih =>
    by_cases h1 : hd.1 = k
    · rw [show hd = (hd.1, hd.2) from rfl, aerase, if_pos h1, alookup, if_neg (h1 ▸ h)]
      exact ih
    · rw [show hd = (hd.1, hd.2) from rfl, aerase, if_neg h1, alookup, alookup]
      by_cases h2 : hd.1 = k' <;> simp [h2, ih]

theorem mem_aerase {α β : Type} [DecidableEq α] {l : List (α × β)} {k : α} {kv : α × β}
    (h : kv ∈ aerase l k) : kv ∈ l ∧ kv.1 ≠ k := by
  induction l with
  | nil => simp [aerase] at h
  | cons hd tl ih =>
    by_cases h1 : hd.1 = k
    · rw [show hd = (hd.1, hd.2) from rfl, aerase, if_pos h1] at h
      exact ⟨List.mem_cons_of_mem _ (ih h).1, (ih h).2⟩
    · rw [show hd = (hd.1, hd.2) from rfl, aerase, if_neg h1] at h
      rcases List.mem_cons.mp h with h2 | h2
      · refine ⟨by simp [h2], ?_⟩
        rw [h2]
        exact h1
      · exact ⟨List.mem_cons_of_mem _ (ih h2).1, (ih h2).2⟩

theorem mem_aerase_of_mem {α β : Type} [DecidableEq α] {l : List (α × β)} {k : α}
    {kv : α × β} (h : kv ∈ l) (hne : kv.1 ≠ k) : kv ∈ aerase l k := by
  induction l with
  | nil => simp at h
  | cons hd tl ih =>
    rcases List.mem_cons.mp h with h2 | h2
    · subst h2
      rw [show kv = (kv.1, kv.2) from rfl, aerase, if_neg hne]
      simp
    · by_cases h1 : hd.1 = k
      · rw [show hd = (hd.1, hd.2) from rfl, aerase, if_pos h1]
        exact ih h2
      · rw [show hd = (hd.1, hd.2) from rfl, aerase, if_neg h1]
        exact List.mem_cons_of_mem _ (ih h2)

end Frodo

namespace Frodo

/-- C8: for every cache state, corpus ID, and query payload whose attribute
map is non-empty, `EmptyQueryCache.Get` returns miss (`none`), regardless of
what is stored in the cache. -/
theorem get_miss_of_attrs_nonempty {V : Type} (qc : Cache.EmptyQueryCache V)
    (corpusID : String) (qry : Cache.Payload) (h : qry.attrs ≠ []) :
    qc.Get corpusID qry = none := by
  unfold Cache.EmptyQueryCache.Get
  rw [if_pos]
  exact List.length_pos.mpr h

/-- Witness for C8: a cache that stores a value for the exact key of the
query still misses because the query carries an attribute filter. -/
theorem get_miss_of_attrs_nonempty_witness :
    Cache.EmptyQueryCache.Get (V := Nat)
      { data := [(["cs"], 42)], corpKeyDeps := [("cs", [["cs"]])] } "cs"
      { attrs := [("doc.pubyear", "2000")], aligned := [] } = none :=
  get_miss_of_attrs_nonempty _ "cs" _ (by decide)

/-- C9: on cancellation, the snapshot produced with a configured status path
contains exactly the job-table entries not marked finished, and with no
configured path nothing is written. -/
theorem snapshot_exactly_unfinished (path : String) (t : Jobs.JobTable) :
    (path = "" → Jobs.goWaitExitSnapshot path t = none) ∧
    (path ≠ "" → ∃ l, Jobs.goWaitExitSnapshot path t = some l ∧
      ∀ d, d ∈ l ↔ ∃ id, (id, d) ∈ t ∧ d.finished = false) := by
  constructor
  · intro h
    simp [Jobs.goWaitExitSnapshot, h]
  · intro h
    refine ⟨Jobs.createJobList t true, by simp [Jobs.goWaitExitSnapshot, h], ?_⟩
    intro d
    constructor
    · intro hd
      rcases List.mem_map.mp hd with ⟨kv, hkv, rfl⟩
      rcases List.mem_filter.mp hkv with ⟨hmem, hfin⟩
      exact ⟨kv.1, by simpa using hmem, by simpa using hfin⟩
    · rintro ⟨id, hmem, hfin⟩
      exact List.mem_map.mpr ⟨(id, d),
        List.mem_filter.mpr ⟨hmem, by simp [hfin]⟩, rfl⟩

/-- Witness for C9: for a table with one finished and one unfinished entry
and a configured path, the snapshot contains the unfinished descriptor and
not the finished one; with an empty path nothing is produced. -/
theorem snapshot_exactly_unfinished_witness :
    Jobs.goWaitExitSnapshot "" [("j1", Examples.jA)] = none ∧
    ∃ l, Jobs.goWaitExitSnapshot "/tmp/status.json"
        [("j1", Examples.jA), ("j2", Examples.jC)] = some l ∧
      Examples.jC ∈ l ∧ Examples.jA ∉ l := by
  constructor
  · exact (snapshot_exactly_unfinished "" [("j1", Examples.jA)]).1 rfl
  · obtain ⟨l, hl, hiff⟩ :=
      (snapshot_exactly_unfinished "/tmp/status.json"
        [("j1", Examples.jA), ("j2", Examples.jC)]).2 (by decide)
    refine ⟨l, hl, (hiff Examples.jC).mpr ⟨"j2", by decide, by decide⟩, ?_⟩
    intro hmem
    rcases (hiff Examples.jA).mp hmem with ⟨id, _, hfin⟩
    exact absurd hfin (by decide)

/-- C4: when the table-update consumer applies an `UpdateJob` event to an
existing entry, a stored error is re-attached to an incoming descriptor
that lacks one, and otherwise the incoming descriptor is stored as-is. -/
theorem updateJob_sticky_errors (t : Jobs.JobTable) (id : String)
    (d cur : Jobs.GeneralJobInfo) (h : alookup t id = some cur) :
    (cur.error.isSome = true → d.error = none →
      ∃ t', Jobs.applyUpdateJob t id d = some t' ∧
        alookup t' id = some (d.WithError cur.error)) ∧
    (cur.error = none ∨ d.error.isSome = true →
      ∃ t', Jobs.applyUpdateJob t id d = some t' ∧ alookup t' id = some d) := by
  constructor
  · intro hcur hd
    refine ⟨ainsert t id (d.WithError cur.error), ?_, alookup_ainsert_self _ _ _⟩
    simp [Jobs.applyUpdateJob, h, hcur, hd]
  · intro hcase
    refine ⟨ainsert t id d, ?_, alookup_ainsert_self _ _ _⟩
    rcases hcase with hc | hc
    · simp [Jobs.applyUpdateJob, h, hc]
    · cases hdo : d.error with
      | none => rw [hdo] at hc; simp at hc
      | some x => simp [Jobs.applyUpdateJob, h, hdo]

/-- Witness for C4: an entry with error `boom` merged with an error-free
incoming descriptor keeps `boom`; an entry without error is replaced. -/
theorem updateJob_sticky_errors_witness :
    (∃ t', Jobs.applyUpdateJob [("j1", Examples.jErr)] "j1" Examples.jB = some t' ∧
      alookup t' "j1" = some (Examples.jB.WithError (some "boom"))) ∧
    (∃ t', Jobs.applyUpdateJob [("j1", Examples.jA)] "j1" Examples.jB = some t' ∧
      alookup t' "j1" = some Examples.jB) := by
  constructor
  · exact (updateJob_sticky_errors [("j1", Examples.jErr)] "j1" Examples.jB Examples.jErr
      (by decide)).1 rfl rfl
  · exact (updateJob_sticky_errors [("j1", Examples.jA)] "j1" Examples.jB Examples.jA
      (by decide)).2 (Or.inl rfl)

/-- Counterexample for C1: a finished table entry is not left unchanged by a
later non-finished `UpdateJob` event; the consumer overwrites it with the
incoming descriptor. -/
theorem finished_entry_overwritten_cex :
    Examples.jA.finished = true ∧ Examples.jB.finished = false ∧
    Jobs.applyUpdateJob [("j1", Examples.jA)] "j1" Examples.jB =
      some [("j1", Examples.jB)] ∧ Examples.jB ≠ Examples.jA := by decide

/-- C1 as amended: once an entry is marked finished, a later non-finished
`UpdateJob` event for the same ID is not ignored; the consumer stores the
incoming descriptor, re-attaching the stored error exactly when the stored
entry has one and the incoming descriptor has none. -/
theorem updateJob_applies_to_finished_entry (t : Jobs.JobTable) (id : String)
    (d e : Jobs.GeneralJobInfo) (h : alookup t id = some e) (_hfin : e.finished = true)
    (_hnf : d.finished = false) :
    ∃ t', Jobs.applyUpdateJob t id d = some t' ∧
      alookup t' id =
        some (if e.error.isSome && d.error.isNone then d.WithError e.error else d) := by
  by_cases hc : (e.error.isSome && d.error.isNone) = true
  · refine ⟨ainsert t id (d.WithError e.error), ?_, ?_⟩
    · simp [Jobs.applyUpdateJob, h, hc]
    · rw [if_pos hc]
      exact alookup_ainsert_self _ _ _
  · refine ⟨ainsert t id d, ?_, ?_⟩
    · simp [Jobs.applyUpdateJob, h, hc]
    · rw [if_neg hc]
      exact alookup_ainsert_self _ _ _

/-- Witness for the amended C1: the finished entry for `j1` is replaced by
the later non-finished descriptor. -/
theorem updateJob_applies_to_finished_entry_witness :
    ∃ t', Jobs.applyUpdateJob [("j1", Examples.jA)] "j1" Examples.jB = some t' ∧
      alookup t' "j1" =
        some (if Examples.jA.error.isSome && Examples.jB.error.isNone then
          Examples.jB.WithError Examples.jA.error else Examples.jB) :=
  updateJob_applies_to_finished_entry [("j1", Examples.jA)] "j1" Examples.jB Examples.jA
    (by decide) (by decide) (by decide)

/-- C3 (code bug): `dequeueJobAsFailed` dequeues the head unconditionally,
attaches the error and registers the descriptor, and pushes the failed
finished descriptor on the update channel — but it never closes the
channel, so the register pump emits only the `updateJob` event and no
`finishJob` event is ever produced for the failed job. -/
theorem dequeueJobAsFailed_emits_no_finish_event :
    Jobs.dequeueJobAsFailedState
        (Jobs.SchedState.mk 2 [] [Examples.jC] []) "parent failed" =
      Jobs.SchedState.mk 2
        [("j2", Examples.jC.WithError (some "parent failed"))] [] [] ∧
    (Jobs.dequeueJobAsFailedChannelUse Examples.jC "parent failed").pushed =
      [(Examples.jC.WithError (some "parent failed")).AsFinished] ∧
    (Jobs.dequeueJobAsFailedChannelUse Examples.jC "parent failed").closed = false ∧
    Jobs.pumpEvents "j2" (Jobs.dequeueJobAsFailedChannelUse Examples.jC "parent failed") =
      [Jobs.TableUpdate.mk Jobs.TableAction.updateJob "j2"
        (some ((Examples.jC.WithError (some "parent failed")).AsFinished))] ∧
    ∀ e ∈ Jobs.pumpEvents "j2"
        (Jobs.dequeueJobAsFailedChannelUse Examples.jC "parent failed"),
      e.action ≠ Jobs.TableAction.finishJob := by decide

/-- Counterexample for C2: with ceiling 2, an empty job table and two
dependency-free queued jobs, one tick admits only the head job; after the
tick the unfinished count is still below the ceiling and the queue is still
non-empty, yet the second job was not admitted within the tick. -/
theorem single_admission_per_tick_cex :
    Jobs.schedulerTick (Jobs.SchedState.mk 2 [] [Examples.jC, Examples.jD] []) =
      Jobs.SchedState.mk 2 [("j2", Examples.jC)] [Examples.jD] [] ∧
    Jobs.numOfUnfinishedJobs [("j2", Examples.jC)] < 2 ∧
    ([Examples.jD] : Jobs.JobQueue) ≠ [] := by decide

end Frodo

namespace Frodo

theorem numOfUnfinished_cons (k : String) (v : Jobs.GeneralJobInfo) (t : Jobs.JobTable) :
    Jobs.numOfUnfinishedJobs ((k, v) :: t) =
      (if v.finished then 0 else 1) + Jobs.numOfUnfinishedJobs t := by
  cases h : v.finished <;>
    simp [Jobs.numOfUnfinishedJobs, List.filter_cons, h, Nat.add_comm]

theorem numOfUnfinished_ainsert_le (t : Jobs.JobTable) (id : String)
    (j : Jobs.GeneralJobInfo) :
    Jobs.numOfUnfinishedJobs (ainsert t id j) ≤ Jobs.numOfUnfinishedJobs t + 1 := by
  induction t with
  | nil =>
    rw [show ainsert ([] : Jobs.JobTable) id j = [(id, j)] from rfl, numOfUnfinished_cons]
    cases j.finished <;> simp [Jobs.numOfUnfinishedJobs]
  | cons hd tl ih =>
    by_cases h1 : hd.1 = id
    · rw [show hd = (hd.1, hd.2) from rfl, ainsert, if_pos h1, numOfUnfinished_cons,
        numOfUnfinished_cons]
      have hb : (if j.finished then 0 else 1) ≤ (if hd.2.finished then 0 else 1) + 1 := by
        cases j.finished <;> cases hd.2.finished <;> simp
      omega
    · rw [show hd = (hd.1, hd.2) from rfl, ainsert, if_neg h1, numOfUnfinished_cons,
        numOfUnfinished_cons]
      omega

theorem numOfUnfinished_ainsert_finished (t : Jobs.JobTable) (id : String)
    (j : Jobs.GeneralJobInfo) (h : j.finished = true) :
    Jobs.numOfUnfinishedJobs (ainsert t id j) ≤ Jobs.numOfUnfinishedJobs t := by
  induction t with
  | nil =>
    rw [show ainsert ([] : Jobs.JobTable) id j = [(id, j)] from rfl, numOfUnfinished_cons]
    simp [Jobs.numOfUnfinishedJobs, h]
  | cons hd tl ih =>
    by_cases h1 : hd.1 = id
    · rw [show hd = (hd.1, hd.2) from rfl, ainsert, if_pos h1, numOfUnfinished_cons,
        numOfUnfinished_cons]
      have hz : (if j.finished then 0 else 1) = 0 := by simp [h]
      omega
    · rw [show hd = (hd.1, hd.2) from rfl, ainsert, if_neg h1, numOfUnfinished_cons,
        numOfUnfinished_cons]
      omega

theorem schedulerTick_eq (s : Jobs.SchedState) :
    Jobs.schedulerTick s = s ∨
    (∃ j rest, s.queue = j :: rest ∧
      Jobs.numOfUnfinishedJobs s.jobList < s.maxNumConcurrentJobs ∧
      (Jobs.schedulerTick s = { s with queue := rest ++ [j] } ∨
       Jobs.schedulerTick s = { s with
         queue := rest,
         jobList := Jobs.registerJob s.jobList
           (j.WithError (some (Jobs.failedParentErr j.id))) } ∨
       Jobs.schedulerTick s = { s with
         queue := rest,
         jobList := Jobs.registerJob s.jobList j })) := by
  by_cases hb : Jobs.numOfUnfinishedJobs s.jobList < s.maxNumConcurrentJobs
  · cases hq : s.queue with
    | nil => exact Or.inl (by simp [Jobs.schedulerTick, hq, Jobs.peekID, hb])
    | cons j rest =>
      refine Or.inr ⟨j, rest, rfl, hb, ?_⟩
      cases hd : alookup s.jobDeps j.id with
      | none =>
        exact Or.inr (Or.inr (by
          simp [Jobs.schedulerTick, hq, Jobs.peekID, hb, hd, Jobs.dequeueAndRunJob]))
      | some ps =>
        cases hw : Jobs.mustWait s.jobDeps j.id with
        | true =>
          exact Or.inl (by
            simp [Jobs.schedulerTick, hq, Jobs.peekID, hb, hd, hw, Jobs.delayNext])
        | false =>
          cases hf : Jobs.hasFailedParent s.jobDeps j.id with
          | true =>
            exact Or.inr (Or.inl (by
              simp [Jobs.schedulerTick, hq, Jobs.peekID, hb, hd, hw, hf,
                Jobs.dequeueJobAsFailedState]))
          | false =>
            exact Or.inr (Or.inr (by
              simp [Jobs.schedulerTick, hq, Jobs.peekID, hb, hd, hw, hf,
                Jobs.dequeueAndRunJob]))
  · exact Or.inl (by simp [Jobs.schedulerTick, hb])

/-- C2 as amended: each one-second tick takes at most one admission
decision.  When the unfinished count is below the ceiling and the queue is
non-empty, the tick peeks the head: a head without a dependency entry is
dequeued and run; a head that must wait is delayed to the tail and nothing
else happens this tick; a head with a failed parent is dequeued as failed;
a head with satisfied dependencies is dequeued and run.  At most one queue
element is consumed per tick, so several jobs are admitted only across
several ticks. -/
theorem schedulerTick_single_admission (s : Jobs.SchedState) (j : Jobs.GeneralJobInfo)
    (rest : Jobs.JobQueue) (hq : s.queue = j :: rest)
    (hbudget : Jobs.numOfUnfinishedJobs s.jobList < s.maxNumConcurrentJobs) :
    (alookup s.jobDeps j.id = none →
      Jobs.schedulerTick s = { s with
        queue := rest,
        jobList := Jobs.registerJob s.jobList j }) ∧
    (∀ ps, alookup s.jobDeps j.id = some ps → Jobs.mustWait s.jobDeps j.id = true →
      Jobs.schedulerTick s = { s with queue := rest ++ [j] }) ∧
    (∀ ps, alookup s.jobDeps j.id = some ps → Jobs.mustWait s.jobDeps j.id = false →
      Jobs.hasFailedParent s.jobDeps j.id = true →
      Jobs.schedulerTick s = { s with
        queue := rest,
        jobList := Jobs.registerJob s.jobList
          (j.WithError (some (Jobs.failedParentErr j.id))) }) ∧
    (∀ ps, alookup s.jobDeps j.id = some ps → Jobs.mustWait s.jobDeps j.id = false →
      Jobs.hasFailedParent s.jobDeps j.id = false →
      Jobs.schedulerTick s = { s with
        queue := rest,
        jobList := Jobs.registerJob s.jobList j }) ∧
    rest.length ≤ (Jobs.schedulerTick s).queue.length := by
  refine ⟨?_, ?_, ?_, ?_, ?_⟩
  · intro hd
    simp [Jobs.schedulerTick, hq, Jobs.peekID, hbudget, hd, Jobs.dequeueAndRunJob]
  · intro ps hd hw
    simp [Jobs.schedulerTick, hq, Jobs.peekID, hbudget, hd, hw, Jobs.delayNext]
  · intro ps hd hw hf
    simp [Jobs.schedulerTick, hq, Jobs.peekID, hbudget, hd, hw, hf,
      Jobs.dequeueJobAsFailedState]
  · intro ps hd hw hf
    simp [Jobs.schedulerTick, hq, Jobs.peekID, hbudget, hd, hw, hf,
      Jobs.dequeueAndRunJob]
  · cases hd : alookup s.jobDeps j.id with
    | none =>
      simp [Jobs.schedulerTick, hq, Jobs.peekID, hbudget, hd, Jobs.dequeueAndRunJob]
    | some ps =>
      cases hw : Jobs.mustWait s.jobDeps j.id with
      | true =>
        simp [Jobs.schedulerTick, hq, Jobs.peekID, hbudget, hd, hw, Jobs.delayNext]
      | false =>
        cases hf : Jobs.hasFailedParent s.jobDeps j.id with
        | true =>
          simp [Jobs.schedulerTick, hq, Jobs.peekID, hbudget, hd, hw, hf,
            Jobs.dequeueJobAsFailedState]
        | false =>
          simp [Jobs.schedulerTick, hq, Jobs.peekID, hbudget, hd, hw, hf,
            Jobs.dequeueAndRunJob]

/-- Witness for the amended C2: the head `j4` waits on the unfinished
parent `j0`, so the tick delays it to the tail and admits nothing. -/
theorem schedulerTick_single_admission_witness :
    Jobs.schedulerTick
        (Jobs.SchedState.mk 2 [] [Examples.jE, Examples.jD] Examples.depsE) =
      Jobs.SchedState.mk 2 [] [Examples.jD, Examples.jE] Examples.depsE :=
  (schedulerTick_single_admission
      (Jobs.SchedState.mk 2 [] [Examples.jE, Examples.jD] Examples.depsE)
      Examples.jE [Examples.jD] rfl (by decide)).2.1
    [("j0", Jobs.ParentState.unfinished)] (by decide) (by decide)

/-- C5: in every state reachable by scheduler steps (tick admissions, job
finishes, enqueues), the number of job-table entries not marked finished
never exceeds the configured concurrency ceiling. -/
theorem unfinished_le_max_of_reachable (s : Jobs.SchedState)
    (h : Jobs.Reachable s) :
    Jobs.numOfUnfinishedJobs s.jobList ≤ s.maxNumConcurrentJobs := by
  induction h with
  | init maxJobs => simp [Jobs.numOfUnfinishedJobs]
  | @step s1 s2 _ hstep ih =>
    cases hstep with
    | tick =>
      rcases schedulerTick_eq s1 with heq | ⟨j, rest, hq, hlt, hcase⟩
      · rw [heq]
        exact ih
      · rcases hcase with heq | heq | heq <;> rw [heq]
        · simpa using ih
        · simp only [Jobs.registerJob]
          exact le_trans (numOfUnfinished_ainsert_le _ _ _) (by omega)
        · simp only [Jobs.registerJob]
          exact le_trans (numOfUnfinished_ainsert_le _ _ _) (by omega)
    | finish id wasFailure t' hfin =>
      obtain ⟨cur, hcur, rfl⟩ : ∃ cur, alookup s1.jobList id = some cur ∧
          t' = ainsert s1.jobList id cur.AsFinished := by
        unfold Jobs.applyFinishJob at hfin
        cases hl : alookup s1.jobList id with
        | none => rw [hl] at hfin; cases hfin
        | some cur =>
          rw [hl] at hfin
          exact ⟨cur, rfl, (Option.some_inj.mp hfin).symm⟩
      simpa using le_trans (numOfUnfinished_ainsert_finished _ _ _ rfl) ih
    | enqueue j => simpa using ih
    | enqueueAfter j parents => simpa using ih

/-- Witness for C5: after enqueueing one job into a fresh scheduler with
ceiling 1 and letting one tick admit it, the unfinished count stays within
the ceiling. -/
theorem unfinished_le_max_of_reachable_witness :
    Jobs.numOfUnfinishedJobs
        (Jobs.schedulerTick (Jobs.SchedState.mk 1 [] [Examples.jC] [])).jobList ≤
      (Jobs.schedulerTick
        (Jobs.SchedState.mk 1 [] [Examples.jC] [])).maxNumConcurrentJobs :=
  unfinished_le_max_of_reachable _
    (Jobs.Reachable.step
      (Jobs.Reachable.step (Jobs.Reachable.init 1)
        (Jobs.SchedStep.enqueue (Jobs.SchedState.mk 1 [] [] []) Examples.jC))
      (Jobs.SchedStep.tick (Jobs.SchedState.mk 1 [] [Examples.jC] [])))

end Frodo

namespace Frodo

theorem alookup_map_values {α β γ : Type} [DecidableEq α] (l : List (α × β)) (f : β → γ)
    (k : α) :
    alookup (l.map (fun kv => (kv.1, f kv.2))) k = (alookup l k).map f := by
  induction l with
  | nil => simp [alookup]
  | cons hd tl ih =>
    by_cases h1 : hd.1 = k
    · simp [alookup, h1]
    · simp [alookup, h1, ih]

theorem mem_getBucket_iff {V : Type} (qc : Cache.EmptyQueryCache V) (c : String)
    (x : Cache.CacheKey) :
    x ∈ Cache.getBucket qc c ↔
      ∃ keys, alookup qc.corpKeyDeps c = some keys ∧ x ∈ keys := by
  unfold Cache.getBucket
  cases h : alookup qc.corpKeyDeps c with
  | none => simp
  | some keys => simp [h]

theorem setDep_data {V : Type} (qc : Cache.EmptyQueryCache V) (c : String)
    (k : Cache.CacheKey) : (Cache.setKeyCorpusDependency qc c k).data = qc.data := by
  unfold Cache.setKeyCorpusDependency
  cases alookup qc.corpKeyDeps c with
  | none => rfl
  | some keys => by_cases h : k ∈ keys <;> simp [h]

theorem setDep_corpKeyDeps {V : Type} (qc : Cache.EmptyQueryCache V) (c : String)
    (k : Cache.CacheKey) :
    (Cache.setKeyCorpusDependency qc c k).corpKeyDeps =
      if k ∈ Cache.getBucket qc c then qc.corpKeyDeps
      else ainsert qc.corpKeyDeps c (Cache.getBucket qc c ++ [k]) := by
  cases h : alookup qc.corpKeyDeps c with
  | none => simp [Cache.setKeyCorpusDependency, h, Cache.getBucket]
  | some keys =>
    by_cases hk : k ∈ keys
    · simp [Cache.setKeyCorpusDependency, h, hk, Cache.getBucket]
    · simp [Cache.setKeyCorpusDependency, h, hk, Cache.getBucket]

theorem getBucket_setDep {V : Type} (qc : Cache.EmptyQueryCache V) (c : String)
    (k : Cache.CacheKey) (c' : String) :
    Cache.getBucket (Cache.setKeyCorpusDependency qc c k) c' =
      if c = c' then
        (if k ∈ Cache.getBucket qc c then Cache.getBucket qc c
         else Cache.getBucket qc c ++ [k])
      else Cache.getBucket qc c' := by
  simp only [Cache.getBucket, setDep_corpKeyDeps]
  by_cases hk : k ∈ (alookup qc.corpKeyDeps c).getD []
  · rw [if_pos hk]
    by_cases hc : c = c'
    · subst hc
      rw [if_pos rfl, if_pos hk]
    · rw [if_neg hc]
  · rw [if_neg hk]
    by_cases hc : c = c'
    · subst hc
      rw [if_pos rfl, if_neg hk, alookup_ainsert_self]
      rfl
    · rw [if_neg hc, alookup_ainsert_ne _ _ _ _ hc]

theorem setDep_mem {V : Type} (qc : Cache.EmptyQueryCache V) (c : String)
    (k : Cache.CacheKey) : k ∈ Cache.getBucket (Cache.setKeyCorpusDependency qc c k) c := by
  rw [getBucket_setDep, if_pos rfl]
  by_cases hk : k ∈ Cache.getBucket qc c <;> simp [hk]

theorem setDep_mono {V : Type} {qc : Cache.EmptyQueryCache V} {c' : String}
    {x : Cache.CacheKey} (c : String) (k : Cache.CacheKey)
    (hx : x ∈ Cache.getBucket qc c') :
    x ∈ Cache.getBucket (Cache.setKeyCorpusDependency qc c k) c' := by
  rw [getBucket_setDep]
  by_cases hc : c = c'
  · subst hc
    by_cases hk : k ∈ Cache.getBucket qc c
    · simpa [hk] using hx
    · simp only [if_pos rfl, if_neg hk]
      exact List.mem_append_left _ hx
  · simpa [hc] using hx

theorem setDep_id {V : Type} {qc : Cache.EmptyQueryCache V} {c : String}
    {k : Cache.CacheKey} (h : k ∈ Cache.getBucket qc c) :
    Cache.setKeyCorpusDependency qc c k = qc := by
  rcases (mem_getBucket_iff qc c k).mp h with ⟨keys, hl, hk⟩
  simp [Cache.setKeyCorpusDependency, hl, hk]

theorem foldSetDep_data {V : Type} (as : List String) (qc : Cache.EmptyQueryCache V)
    (k : Cache.CacheKey) :
    (as.foldl (fun acc a => Cache.setKeyCorpusDependency acc a k) qc).data = qc.data := by
  induction as generalizing qc with
  | nil => rfl
  | cons a tl ih => rw [List.foldl_cons, ih, setDep_data]

theorem foldSetDep_mono {V : Type} {qc : Cache.EmptyQueryCache V} {c' : String}
    {x : Cache.CacheKey} (as : List String) (k : Cache.CacheKey)
    (hx : x ∈ Cache.getBucket qc c') :
    x ∈ Cache.getBucket
      (as.foldl (fun acc a => Cache.setKeyCorpusDependency acc a k) qc) c' := by
  induction as generalizing qc with
  | nil => exact hx
  | cons a tl ih => exact ih (setDep_mono a k hx)

theorem foldSetDep_mem {V : Type} {qc : Cache.EmptyQueryCache V} {c : String}
    (as : List String) (k : Cache.CacheKey) (hc : c ∈ as) :
    k ∈ Cache.getBucket
      (as.foldl (fun acc a => Cache.setKeyCorpusDependency acc a k) qc) c := by
  induction as generalizing qc with
  | nil => simp at hc
  | cons a tl ih =>
    rcases List.mem_cons.mp hc with h1 | h1
    · subst h1
      exact foldSetDep_mono tl k (setDep_mem qc c k)
    · exact ih h1

theorem foldSetDep_id {V : Type} {qc : Cache.EmptyQueryCache V} (as : List String)
    (k : Cache.CacheKey) (h : ∀ a ∈ as, k ∈ Cache.getBucket qc a) :
    as.foldl (fun acc a => Cache.setKeyCorpusDependency acc a k) qc = qc := by
  induction as with
  | nil => rfl
  | cons a tl ih =>
    rw [List.foldl_cons, setDep_id (h a (by simp))]
    exact ih (fun a' ha' => h a' (List.mem_cons_of_mem _ ha'))

theorem set_eq {V : Type} (qc : Cache.EmptyQueryCache V) (cid : String)
    (qry : Cache.Payload) (v : V) (hattrs : qry.attrs = []) :
    qc.Set cid qry v =
      qry.aligned.foldl
        (fun acc a => Cache.setKeyCorpusDependency acc a (Cache.mkKey cid qry.aligned))
        (Cache.setKeyCorpusDependency
          { qc with data := ainsert qc.data (Cache.mkKey cid qry.aligned) v }
          cid (Cache.mkKey cid qry.aligned)) := by
  simp [Cache.EmptyQueryCache.Set, hattrs]

theorem set_data {V : Type} (qc : Cache.EmptyQueryCache V) (cid : String)
    (qry : Cache.Payload) (v : V) (hattrs : qry.attrs = []) :
    (qc.Set cid qry v).data = ainsert qc.data (Cache.mkKey cid qry.aligned) v := by
  rw [set_eq qc cid qry v hattrs, foldSetDep_data, setDep_data]

theorem set_bucket_primary {V : Type} (qc : Cache.EmptyQueryCache V) (cid : String)
    (qry : Cache.Payload) (v : V) (hattrs : qry.attrs = []) :
    Cache.mkKey cid qry.aligned ∈ Cache.getBucket (qc.Set cid qry v) cid := by
  rw [set_eq qc cid qry v hattrs]
  exact foldSetDep_mono _ _ (setDep_mem _ cid _)

theorem set_bucket_aligned {V : Type} (qc : Cache.EmptyQueryCache V) (cid : String)
    (qry : Cache.Payload) (v : V) (hattrs : qry.attrs = []) {a : String}
    (ha : a ∈ qry.aligned) :
    Cache.mkKey cid qry.aligned ∈ Cache.getBucket (qc.Set cid qry v) a := by
  rw [set_eq qc cid qry v hattrs]
  exact foldSetDep_mem _ _ ha

theorem set_bucket_mono {V : Type} {qc : Cache.EmptyQueryCache V} {c : String}
    {x : Cache.CacheKey} (cid : String) (qry : Cache.Payload) (v : V)
    (hx : x ∈ Cache.getBucket qc c) :
    x ∈ Cache.getBucket (qc.Set cid qry v) c := by
  by_cases hattrs : qry.attrs = []
  · rw [set_eq qc cid qry v hattrs]
    exact foldSetDep_mono _ _ (setDep_mono cid _ hx)
  · have hlen : qry.attrs.length > 0 := List.length_pos.mpr hattrs
    unfold Cache.EmptyQueryCache.Set
    rw [if_pos hlen]
    exact hx

end Frodo

namespace Frodo

theorem pruneKeyInDeps_data {V : Type} (qc : Cache.EmptyQueryCache V)
    (key : Cache.CacheKey) : (Cache.pruneKeyInDeps qc key).data = qc.data := rfl

theorem getBucket_pruneKeyInDeps {V : Type} (qc : Cache.EmptyQueryCache V)
    (key : Cache.CacheKey) (c : String) :
    Cache.getBucket (Cache.pruneKeyInDeps qc key) c =
      (Cache.getBucket qc c).filter (fun k => k ≠ key) := by
  unfold Cache.getBucket Cache.pruneKeyInDeps
  rw [alookup_map_values]
  cases alookup qc.corpKeyDeps c <;> simp

theorem delStep_data {V : Type} (qc : Cache.EmptyQueryCache V) (key : Cache.CacheKey) :
    (Cache.delStep qc key).data = aerase qc.data key := rfl

theorem getBucket_delStep {V : Type} (qc : Cache.EmptyQueryCache V)
    (key : Cache.CacheKey) (c : String) :
    Cache.getBucket (Cache.delStep qc key) c =
      (Cache.getBucket qc c).filter (fun k => k ≠ key) := by
  unfold Cache.delStep
  rw [getBucket_pruneKeyInDeps]
  rfl

theorem delStep_mem_data {V : Type} {qc : Cache.EmptyQueryCache V} {key : Cache.CacheKey}
    {kv : Cache.CacheKey × V} (h : kv ∈ (Cache.delStep qc key).data) :
    kv ∈ qc.data ∧ kv.1 ≠ key := by
  rw [delStep_data] at h
  exact mem_aerase h

theorem delStep_bucket_mem {V : Type} {qc : Cache.EmptyQueryCache V}
    {key x : Cache.CacheKey} {c : String}
    (h : x ∈ Cache.getBucket (Cache.delStep qc key) c) :
    x ∈ Cache.getBucket qc c ∧ x ≠ key := by
  rw [getBucket_delStep] at h
  have := List.mem_filter.mp h
  exact ⟨this.1, by simpa using this.2⟩

theorem delStep_bucket_mem_of {V : Type} {qc : Cache.EmptyQueryCache V}
    {key x : Cache.CacheKey} {c : String} (hx : x ∈ Cache.getBucket qc c)
    (hne : x ≠ key) : x ∈ Cache.getBucket (Cache.delStep qc key) c := by
  rw [getBucket_delStep]
  exact List.mem_filter.mpr ⟨hx, by simpa using hne⟩

theorem foldDel_data_mem {V : Type} (keys : List Cache.CacheKey)
    (qc : Cache.EmptyQueryCache V) {kv : Cache.CacheKey × V}
    (h : kv ∈ (keys.foldl Cache.delStep qc).data) : kv ∈ qc.data ∧ kv.1 ∉ keys := by
  induction keys generalizing qc with
  | nil => exact ⟨h, by simp⟩
  | cons khd ktl ih =>
    rw [List.foldl_cons] at h
    obtain ⟨h1, h2⟩ := ih (Cache.delStep qc khd) h
    obtain ⟨h3, h4⟩ := delStep_mem_data h1
    refine ⟨h3, ?_⟩
    simp only [List.mem_cons, not_or]
    exact ⟨h4, h2⟩

theorem foldDel_data_mem_of {V : Type} (keys : List Cache.CacheKey)
    (qc : Cache.EmptyQueryCache V) {kv : Cache.CacheKey × V}
    (h : kv ∈ qc.data) (hk : kv.1 ∉ keys) : kv ∈ (keys.foldl Cache.delStep qc).data := by
  induction keys generalizing qc with
  | nil => exact h
  | cons khd ktl ih =>
    rw [List.foldl_cons]
    have hne : kv.1 ≠ khd := by
      intro heq
      exact hk (by simp [heq])
    have h1 : kv ∈ (Cache.delStep qc khd).data := by
      rw [delStep_data]
      exact mem_aerase_of_mem h hne
    exact ih (Cache.delStep qc khd) h1 (fun hmem => hk (List.mem_cons_of_mem _ hmem))

theorem foldDel_lookup_none {V : Type} (keys : List Cache.CacheKey)
    (qc : Cache.EmptyQueryCache V) {key : Cache.CacheKey} (hk : key ∈ keys) :
    alookup (keys.foldl Cache.delStep qc).data key = none := by
  cases hl : alookup (keys.foldl Cache.delStep qc).data key with
  | none => rfl
  | some v =>
    have hmem := mem_of_alookup_eq_some hl
    exact absurd hk (foldDel_data_mem keys qc hmem).2

theorem foldDel_bucket_mem {V : Type} (keys : List Cache.CacheKey)
    (qc : Cache.EmptyQueryCache V) {x : Cache.CacheKey} {c : String}
    (h : x ∈ Cache.getBucket (keys.foldl Cache.delStep qc) c) :
    x ∈ Cache.getBucket qc c ∧ x ∉ keys := by
  induction keys generalizing qc with
  | nil => exact ⟨h, by simp⟩
  | cons khd ktl ih =>
    rw [List.foldl_cons] at h
    obtain ⟨h1, h2⟩ := ih (Cache.delStep qc khd) h
    obtain ⟨h3, h4⟩ := delStep_bucket_mem h1
    refine ⟨h3, ?_⟩
    simp only [List.mem_cons, not_or]
    exact ⟨h4, h2⟩

theorem foldDel_bucket_mem_of {V : Type} (keys : List Cache.CacheKey)
    (qc : Cache.EmptyQueryCache V) {x : Cache.CacheKey} {c : String}
    (hx : x ∈ Cache.getBucket qc c) (hk : x ∉ keys) :
    x ∈ Cache.getBucket (keys.foldl Cache.delStep qc) c := by
  induction keys generalizing qc with
  | nil => exact hx
  | cons khd ktl ih =>
    rw [List.foldl_cons]
    have hne : x ≠ khd := by
      intro heq
      exact hk (by simp [heq])
    exact ih (Cache.delStep qc khd) (delStep_bucket_mem_of hx hne)
      (fun hmem => hk (List.mem_cons_of_mem _ hmem))

theorem del_data {V : Type} (qc : Cache.EmptyQueryCache V) (cid : String) :
    (qc.Del cid).data = ((Cache.getBucket qc cid).foldl Cache.delStep qc).data := rfl

theorem del_corpKeyDeps {V : Type} (qc : Cache.EmptyQueryCache V) (cid : String) :
    (qc.Del cid).corpKeyDeps =
      aerase ((Cache.getBucket qc cid).foldl Cache.delStep qc).corpKeyDeps cid := rfl

theorem del_data_mem {V : Type} {qc : Cache.EmptyQueryCache V} {cid : String}
    {kv : Cache.CacheKey × V} (h : kv ∈ (qc.Del cid).data) :
    kv ∈ qc.data ∧ kv.1 ∉ Cache.getBucket qc cid := by
  rw [del_data] at h
  exact foldDel_data_mem _ _ h

theorem del_lookup_corpKeyDeps_self {V : Type} (qc : Cache.EmptyQueryCache V)
    (cid : String) : alookup (qc.Del cid).corpKeyDeps cid = none := by
  rw [del_corpKeyDeps]
  exact alookup_aerase_self _ _

theorem getBucket_del_ne {V : Type} (qc : Cache.EmptyQueryCache V) {cid c : String}
    (hc : c ≠ cid) :
    Cache.getBucket (qc.Del cid) c =
      Cache.getBucket ((Cache.getBucket qc cid).foldl Cache.delStep qc) c := by
  unfold Cache.getBucket
  rw [del_corpKeyDeps, alookup_aerase_ne _ _ _ (fun h => hc h.symm)]
  rfl

theorem del_bucket_mem {V : Type} {qc : Cache.EmptyQueryCache V} {cid : String}
    {x : Cache.CacheKey} {c : String} (h : x ∈ Cache.getBucket (qc.Del cid) c) :
    x ∈ Cache.getBucket qc c ∧ x ∉ Cache.getBucket qc cid := by
  by_cases hc : c = cid
  · subst hc
    rw [Cache.getBucket, del_lookup_corpKeyDeps_self] at h
    simp at h
  · rw [getBucket_del_ne qc hc] at h
    exact foldDel_bucket_mem _ _ h

theorem del_bucket_mem_of {V : Type} {qc : Cache.EmptyQueryCache V} {cid : String}
    {x : Cache.CacheKey} {c : String} (hc : c ≠ cid) (hx : x ∈ Cache.getBucket qc c)
    (hk : x ∉ Cache.getBucket qc cid) : x ∈ Cache.getBucket (qc.Del cid) c := by
  rw [getBucket_del_ne qc hc]
  exact foldDel_bucket_mem_of _ _ hx hk

end Frodo

namespace Frodo

theorem setDep_nodup {V : Type} {qc : Cache.EmptyQueryCache V} (c : String)
    (k : Cache.CacheKey) (h : Cache.BucketsNodup qc) :
    Cache.BucketsNodup (Cache.setKeyCorpusDependency qc c k) := by
  intro kv hkv
  rw [setDep_corpKeyDeps] at hkv
  by_cases hk : k ∈ Cache.getBucket qc c
  · rw [if_pos hk] at hkv
    exact h kv hkv
  · rw [if_neg hk] at hkv
    rcases mem_ainsert hkv with rfl | hmem
    · have hbn : (Cache.getBucket qc c).Nodup := by
        unfold Cache.getBucket
        cases hl : alookup qc.corpKeyDeps c with
        | none => simp
        | some keys => simpa using h (c, keys) (mem_of_alookup_eq_some hl)
      simp only [List.nodup_append]
      refine ⟨hbn, List.nodup_singleton k, ?_⟩
      intro a ha hak
      rw [List.mem_singleton.mp hak] at ha
      exact hk ha
    · exact h kv hmem

theorem foldSetDep_nodup {V : Type} {qc : Cache.EmptyQueryCache V} (as : List String)
    (k : Cache.CacheKey) (h : Cache.BucketsNodup qc) :
    Cache.BucketsNodup (as.foldl (fun acc a => Cache.setKeyCorpusDependency acc a k) qc) := by
  induction as generalizing qc with
  | nil => exact h
  | cons a tl ih => exact ih (setDep_nodup a k h)

theorem set_nodup {V : Type} {qc : Cache.EmptyQueryCache V} (cid : String)
    (qry : Cache.Payload) (v : V) (h : Cache.BucketsNodup qc) :
    Cache.BucketsNodup (qc.Set cid qry v) := by
  by_cases hattrs : qry.attrs = []
  · rw [set_eq qc cid qry v hattrs]
    have hdata : Cache.BucketsNodup
        ({ qc with data := ainsert qc.data (Cache.mkKey cid qry.aligned) v }) := h
    exact foldSetDep_nodup _ _ (setDep_nodup _ _ hdata)
  · have hlen : qry.attrs.length > 0 := List.length_pos.mpr hattrs
    have hno : qc.Set cid qry v = qc := by
      unfold Cache.EmptyQueryCache.Set
      rw [if_pos hlen]
    rw [hno]
    exact h

theorem set_idem_aux {V : Type} (qc : Cache.EmptyQueryCache V) (cid : String)
    (qry : Cache.Payload) (v : V) (hattrs : qry.attrs = []) :
    (qc.Set cid qry v).Set cid qry v = qc.Set cid qry v := by
  have h1 : Cache.mkKey cid qry.aligned ∈ Cache.getBucket (qc.Set cid qry v) cid :=
    set_bucket_primary qc cid qry v hattrs
  have h2 : ∀ a ∈ qry.aligned,
      Cache.mkKey cid qry.aligned ∈ Cache.getBucket (qc.Set cid qry v) a :=
    fun a ha => set_bucket_aligned qc cid qry v hattrs ha
  have hdata : ainsert (qc.Set cid qry v).data (Cache.mkKey cid qry.aligned) v =
      (qc.Set cid qry v).data := by
    rw [set_data qc cid qry v hattrs, ainsert_idem]
  have heta : ({ qc.Set cid qry v with data := (qc.Set cid qry v).data } :
      Cache.EmptyQueryCache V) = qc.Set cid qry v := rfl
  rw [set_eq (qc.Set cid qry v) cid qry v hattrs, hdata, heta, setDep_id h1,
    foldSetDep_id qry.aligned _ h2]

/-- C6: the reverse-index invariant — every corpus ID appearing in a stored
key has that key in its reverse-index bucket — is preserved by every `Set`
and every `Del`. -/
theorem revIndexInv_preserved {V : Type} (qc : Cache.EmptyQueryCache V)
    (h : Cache.RevIndexInv qc) :
    (∀ cid qry v, Cache.RevIndexInv (qc.Set cid qry v)) ∧
    (∀ cid, Cache.RevIndexInv (qc.Del cid)) := by
  constructor
  · intro cid qry v
    by_cases hattrs : qry.attrs = []
    · intro kv hkv c hc
      rw [set_data qc cid qry v hattrs] at hkv
      rcases mem_ainsert hkv with rfl | hmem
      · have hc' : c ∈ qry.aligned ++ [cid] := hc
        rcases List.mem_append.mp hc' with hca | hcp
        · exact set_bucket_aligned qc cid qry v hattrs hca
        · have hcc : c = cid := by simpa using hcp
          subst hcc
          exact set_bucket_primary qc c qry v hattrs
      · exact set_bucket_mono cid qry v (h kv hmem c hc)
    · have hlen : qry.attrs.length > 0 := List.length_pos.mpr hattrs
      have hno : qc.Set cid qry v = qc := by
        unfold Cache.EmptyQueryCache.Set
        rw [if_pos hlen]
      rw [hno]
      exact h
  · intro cid kv hkv c hc
    obtain ⟨hmem, hnot⟩ := del_data_mem hkv
    by_cases hccid : c = cid
    · subst hccid
      exact absurd (h kv hmem c hc) hnot
    · exact del_bucket_mem_of hccid (h kv hmem c hc) hnot

/-- Witness for C6: a concrete cache satisfying the invariant still
satisfies it after a `Set` and after a `Del`. -/
theorem revIndexInv_preserved_witness :
    Cache.RevIndexInv
      ((Cache.EmptyQueryCache.mk [(["en", "cs"], 1)]
          [("cs", [["en", "cs"]]), ("en", [["en", "cs"]])] : Cache.EmptyQueryCache Nat).Set
        "de" (Cache.Payload.mk [] []) 5) ∧
    Cache.RevIndexInv
      ((Cache.EmptyQueryCache.mk [(["en", "cs"], 1)]
          [("cs", [["en", "cs"]]), ("en", [["en", "cs"]])] : Cache.EmptyQueryCache Nat).Del
        "en") :=
  ⟨(revIndexInv_preserved _ (by unfold Cache.RevIndexInv; decide)).1 "de"
      (Cache.Payload.mk [] []) 5,
   (revIndexInv_preserved _ (by unfold Cache.RevIndexInv; decide)).2 "en"⟩

/-- C7: after `Del corpusID`, every key that was in `corpusID`'s bucket is
gone from the stored data and from every bucket, `corpusID` has no bucket,
and — given the reverse-index invariant — any `Get` whose key mentions
`corpusID` (as primary or aligned corpus) misses. -/
theorem del_removes_all_refs {V : Type} (qc : Cache.EmptyQueryCache V) (cid : String)
    (hinv : Cache.RevIndexInv qc) :
    (∀ key ∈ Cache.getBucket qc cid, alookup (qc.Del cid).data key = none) ∧
    (∀ key ∈ Cache.getBucket qc cid, ∀ c, key ∉ Cache.getBucket (qc.Del cid) c) ∧
    alookup (qc.Del cid).corpKeyDeps cid = none ∧
    (∀ c qry, cid ∈ Cache.mkKey c qry.aligned → (qc.Del cid).Get c qry = none) := by
  refine ⟨?_, ?_, del_lookup_corpKeyDeps_self qc cid, ?_⟩
  · intro key hkey
    rw [del_data]
    exact foldDel_lookup_none _ _ hkey
  · intro key hkey c hmem
    exact absurd hkey (del_bucket_mem hmem).2
  · intro c qry hcid
    unfold Cache.EmptyQueryCache.Get
    by_cases hlen : qry.attrs.length > 0
    · rw [if_pos hlen]
    · rw [if_neg hlen]
      cases hl : alookup (qc.Del cid).data (Cache.mkKey c qry.aligned) with
      | none => rfl
      | some v =>
        obtain ⟨hmem, hnot⟩ := del_data_mem (mem_of_alookup_eq_some hl)
        exact absurd (hinv _ hmem cid hcid) hnot

/-- Witness for C7, the spec's aligned-corpus invalidation scenario: after
`Set "cs"` with aligned `["en", "de"]` and `Del "de"`, the empty-attribute
`Get "cs"` with the same aligned list misses, and the evicted key is in no
bucket. -/
theorem del_removes_all_refs_witness :
    (((Cache.EmptyQueryCache.mk [] [] : Cache.EmptyQueryCache Nat).Set "cs"
        (Cache.Payload.mk [] ["en", "de"]) 7).Del "de").Get "cs"
      (Cache.Payload.mk [] ["en", "de"]) = none ∧
    ∀ c, ["en", "de", "cs"] ∉ Cache.getBucket
      (((Cache.EmptyQueryCache.mk [] [] : Cache.EmptyQueryCache Nat).Set "cs"
        (Cache.Payload.mk [] ["en", "de"]) 7).Del "de") c := by
  constructor
  · exact (del_removes_all_refs _ "de" (by unfold Cache.RevIndexInv; decide)).2.2.2 "cs"
      (Cache.Payload.mk [] ["en", "de"]) (by decide)
  · exact fun c => (del_removes_all_refs _ "de"
      (by unfold Cache.RevIndexInv; decide)).2.1 ["en", "de", "cs"] (by decide) c

/-- C10: every reverse-index bucket keeps a key at most once (`Set`
preserves bucket nodup-ness), and `Set` is idempotent: repeating the same
`Set` leaves the cache state (stored data and reverse index) unchanged. -/
theorem buckets_nodup_and_set_idempotent {V : Type} (qc : Cache.EmptyQueryCache V)
    (cid : String) (qry : Cache.Payload) (v : V) :
    (Cache.BucketsNodup qc → Cache.BucketsNodup (qc.Set cid qry v)) ∧
    (qc.Set cid qry v).Set cid qry v = qc.Set cid qry v := by
  constructor
  · exact set_nodup cid qry v
  · by_cases hattrs : qry.attrs = []
    · exact set_idem_aux qc cid qry v hattrs
    · have hlen : qry.attrs.length > 0 := List.length_pos.mpr hattrs
      have hno : qc.Set cid qry v = qc := by
        unfold Cache.EmptyQueryCache.Set
        rw [if_pos hlen]
      rw [hno]
      exact hno

/-- Witness for C10: on a concrete cache, `Set` keeps buckets duplicate-free
and doing the same `Set` twice equals doing it once. -/
theorem buckets_nodup_and_set_idempotent_witness :
    Cache.BucketsNodup
      ((Cache.EmptyQueryCache.mk [] [("cs", [["cs"]])] : Cache.EmptyQueryCache Nat).Set
        "cs" (Cache.Payload.mk [] ["en"]) 3) ∧
    (((Cache.EmptyQueryCache.mk [] [("cs", [["cs"]])] : Cache.EmptyQueryCache Nat).Set
        "cs" (Cache.Payload.mk [] ["en"]) 3).Set "cs" (Cache.Payload.mk [] ["en"]) 3) =
      ((Cache.EmptyQueryCache.mk [] [("cs", [["cs"]])] : Cache.EmptyQueryCache Nat).Set
        "cs" (Cache.Payload.mk [] ["en"]) 3) :=
  ⟨(buckets_nodup_and_set_idempotent _ "cs" (Cache.Payload.mk [] ["en"]) 3).1
      (by unfold Cache.BucketsNodup; decide),
   (buckets_nodup_and_set_idempotent _ "cs" (Cache.Payload.mk [] ["en"]) 3).2⟩

end Frodo
